import Mathlib

/-!
Shallow embedding of the `extol_sprite_layer` crate (`src/lib.rs`).

Entities are `ℕ`; `f32` scalars are modelled as exact rationals `ℚ`.
The scene graph is an acyclic forest of `ETree` nodes (the host contract);
component lookups that can fail are `Option`s, and the per-entity
`try_insert` success is an `alive : ℕ → Bool` predicate.
-/

/-- Association-list lookup, modelling `HashMap` lookup keyed by entity id. -/
def alookup {α : Type} : List (ℕ × α) → ℕ → Option α
  | [], _ => none
  | (k, v) :: rest, e => if k = e then some v else alookup rest e

/-- A node of the scene-graph forest: an entity id, an optional explicit
`Layer` component, and the node's children. Acyclicity of the host graph is
captured by this being an inductive tree. -/
inductive ETree (Layer : Type) : Type where
  | node (id : ℕ) (layer : Option Layer) (children : List (ETree Layer))

namespace ETree

variable {Layer : Type}

def id : ETree Layer → ℕ
  | node i _ _ => i

def layer : ETree Layer → Option Layer
  | node _ l _ => l

def children : ETree Layer → List (ETree Layer)
  | node _ _ cs => cs

end ETree

variable {Layer : Type}

mutual
/-- Ids of all nodes of a tree, root first. -/
def treeIds : ETree Layer → List ℕ
  | .node i _ cs => i :: forestIds cs

/-- Ids of all nodes of a list of trees. -/
def forestIds : List (ETree Layer) → List ℕ
  | [] => []
  | c :: cs => treeIds c ++ forestIds cs
end

mutual
/-- Function `propagate_layers_impl` from `src/lib.rs`: record the node's own layer if
present (else the propagated one) and recurse into the children with the
just-determined effective layer. -/
def propagate_layers_impl : ETree Layer → Layer → List (ℕ × Layer)
  | .node i l cs, propagated =>
    (i, l.getD propagated) :: propagate_children cs (l.getD propagated)

/-- The `for child in children` loop of `propagate_layers_impl`. -/
def propagate_children : List (ETree Layer) → Layer → List (ℕ × Layer)
  | [], _ => []
  | c :: cs, eff => propagate_layers_impl c eff ++ propagate_children cs eff
end

/-- Function `inherited_layers` from `src/lib.rs`: walk each parent-less entity that
carries an explicit `Layer` (the `root_query`), building the effective-layer
mapping. Roots without a layer are not walked at all. -/
def inherited_layers : List (ETree Layer) → List (ℕ × Layer)
  | [] => []
  | t :: ts =>
    (match t.layer with
     | some l => propagate_layers_impl t l
     | none => []) ++ inherited_layers ts

/-- Ids of all entities lying in the subtree of some parent-less,
layer-carrying root: the entities the inheritance walk visits. -/
def layer_rooted_ids : List (ETree Layer) → List ℕ
  | [] => []
  | t :: ts =>
    (match t.layer with
     | some _ => treeIds t
     | none => []) ++ layer_rooted_ids ts

/-- The subtree of `t` reached by following the given child indices. -/
def subtree_at : ETree Layer → List ℕ → Option (ETree Layer)
  | t, [] => some t
  | t, i :: p =>
    match t.children.get? i with
    | some c => subtree_at c p
    | none => none

/-- The spec's nearest-ancestor rule, stated independently of the code: walking
down the path, a node's effective layer is its own explicit layer if present,
otherwise the effective layer passed down from its parent (seeded with the
root's layer). -/
def effective_along : Layer → ETree Layer → List ℕ → Option Layer
  | inh, t, [] => some (t.layer.getD inh)
  | inh, t, i :: p =>
    match t.children.get? i with
    | some c => effective_along (t.layer.getD inh) c p
    | none => none

/-- The order on `(ZIndexSortKey, Entity)` pairs from `src/lib.rs`:
`ZIndexSortKey(Reverse(OrderedFloat(y)))` compares by descending `y`, and the
derived tuple order breaks ties by the entity id. -/
def zkey_le (a b : ℚ × ℕ) : Prop :=
  b.1 < a.1 ∨ (a.1 = b.1 ∧ a.2 ≤ b.2)

instance : DecidableRel (zkey_le) := fun a b =>
  inferInstanceAs (Decidable (b.1 < a.1 ∨ (a.1 = b.1 ∧ a.2 ≤ b.2)))

instance : IsTotal (ℚ × ℕ) zkey_le where
  total a b := by
    rcases lt_trichotomy a.1 b.1 with h | h | h
    · exact Or.inr (Or.inl h)
    · rcases Nat.le_total a.2 b.2 with h2 | h2
      · exact Or.inl (Or.inr ⟨h, h2⟩)
      · exact Or.inr (Or.inr ⟨h.symm, h2⟩)
    · exact Or.inl (Or.inl h)

instance : IsTrans (ℚ × ℕ) zkey_le where
  trans a b c hab hbc := by
    rcases hab with h1 | ⟨h1, h1'⟩
    · rcases hbc with h2 | ⟨h2, h2'⟩
      · exact Or.inl (lt_trans h2 h1)
      · exact Or.inl (h2 ▸ h1)
    · rcases hbc with h2 | ⟨h2, h2'⟩
      · exact Or.inl (h1 ▸ h2)
      · exact Or.inr ⟨h1.trans h2, le_trans h1' h2'⟩

/-- The `sort_keys` vector of `compute_render_z_coordinates`: for every entity
in the effective-layer mapping, pair its world y-coordinate (position `0` when
the `GlobalTransform` lookup fails) with the entity id. -/
def sort_keys_of (pos : ℕ → Option ℚ) (layers : List (ℕ × Layer)) : List (ℚ × ℕ) :=
  layers.map (fun pr => ((pos pr.1).getD 0, pr.1))

/-- The `for (i, (_, entity)) in sort_keys.into_iter().enumerate()` loop: each
entity at sorted index `i` receives depth `base + i * scale_factor`, and the
`try_insert` write is dropped for entities that are no longer alive. The
`alookup`-fails branch is unreachable (the iterated keys come from `layers`
itself). -/
def assign_loop (asZ : Layer → ℚ) (layers : List (ℕ × Layer)) (alive : ℕ → Bool)
    (scale : ℚ) : ℕ → List (ℚ × ℕ) → List (ℕ × ℚ)
  | _, [] => []
  | i, (_, e) :: rest =>
    match alookup layers e with
    | some l =>
      if alive e then
        (e, asZ l + (i : ℚ) * scale) :: assign_loop asZ layers alive scale (i + 1) rest
      else
        assign_loop asZ layers alive scale (i + 1) rest
    | none => assign_loop asZ layers alive scale (i + 1) rest

/-- Function `compute_render_z_coordinates` from `src/lib.rs`, returning the list of
`RenderZCoordinate` writes it issues. With y-sorting the keys are sorted by
`zkey_le` and each entity gets `base + i * (1 / n)`; without it every entity
gets its layer's base value. -/
def compute_render_z_coordinates (asZ : Layer → ℚ) (layers : List (ℕ × Layer))
    (pos : ℕ → Option ℚ) (alive : ℕ → Bool) (y_sort : Bool) : List (ℕ × ℚ) :=
  if y_sort then
    assign_loop asZ layers alive (1 / ((sort_keys_of pos layers).length : ℚ)) 0
      (List.insertionSort zkey_le (sort_keys_of pos layers))
  else
    layers.filterMap (fun pr => if alive pr.1 then some (pr.1, asZ pr.2) else none)

/-- The concrete layer type used by the crate's own tests, with its
`as_z_coordinate` values extended by a `half` value whose base is less than
1.0 away from `bottom`. -/
inductive TL : Type where
  | bottom
  | half
  | top
deriving DecidableEq

def asZTL : TL → ℚ
  | .bottom => 0
  | .half => 1 / 2
  | .top => 2

/-- Whole-frame world state: the scene forest plus the per-entity data the four
stages read and write. `globalY e = none` models a failing `GlobalTransform`
lookup; `alive e = false` models a `try_insert` that fails because the entity
was despawned. -/
structure World (Layer : Type) : Type where
  forest : List (ETree Layer)
  localZ : ℕ → ℚ
  globalY : ℕ → Option ℚ
  globalZ : ℕ → ℚ
  renderZ : ℕ → Option ℚ
  alive : ℕ → Bool

/-- The `Clear` stage on the world state: `clear_z_coordinates` zeroes the
local `Transform` z of every entity carrying a `RenderZCoordinate`
(`Query<&mut Transform, With<RenderZCoordinate>>`); other entities are
untouched. -/
def clear_z_coordinates_world (w : World Layer) : World Layer :=
  { w with localZ := fun e => if (w.renderZ e).isSome then 0 else w.localZ e }

/-- Stage `inherited_layers.pipe(compute_render_z_coordinates)`: each write issued by
the computation overwrites that entity's `RenderZCoordinate`. -/
def assign_stage (asZ : Layer → ℚ) (y_sort : Bool) (w : World Layer) : World Layer :=
  { w with renderZ := fun e =>
      match alookup (compute_render_z_coordinates asZ (inherited_layers w.forest)
          w.globalY w.alive y_sort) e with
      | some z => some z
      | none => w.renderZ e }

/-- Function `update_global_transforms` from `src/lib.rs`: copy each entity's
`RenderZCoordinate` into the z of its `GlobalTransform`; entities lacking
either component are untouched. -/
def update_global_transforms (w : World Layer) : World Layer :=
  { w with globalZ := fun e =>
      match w.renderZ e, w.globalY e with
      | some z, some _ => z
      | _, _ => w.globalZ e }

/-- One frame of the plugin's stages in schedule order:
Clear → Inherit → Assign-depth → Write-back. -/
def frame (asZ : Layer → ℚ) (y_sort : Bool) (w : World Layer) : World Layer :=
  update_global_transforms (assign_stage asZ y_sort (clear_z_coordinates_world w))

/-- A world with a single parent-less, layer-less entity `0` that still carries
a stale `RenderZCoordinate` of `5` from an earlier frame. -/
def w_stale : World TL :=
  { forest := [ETree.node 0 none []]
    localZ := fun _ => 3
    globalY := fun _ => some 2
    globalZ := fun _ => 7
    renderZ := fun e => if e = 0 then some 5 else none
    alive := fun _ => true }

structure Vec3 : Type where
  x : ℚ
  y : ℚ
  z : ℚ
deriving DecidableEq

structure Quat : Type where
  qx : ℚ
  qy : ℚ
  qz : ℚ
  qw : ℚ
deriving DecidableEq

/-- Bevy's `Transform`: translation, rotation and scale. -/
structure Transform : Type where
  translation : Vec3
  rotation : Quat
  scale : Vec3
deriving DecidableEq

/-- One entity as seen by `clear_z_coordinates`: its `Transform`, the host's
change-detection flag for that transform, and the optional
`RenderZCoordinate` component. -/
structure TEntity : Type where
  transform : Transform
  transform_changed : Bool
  render_z : Option ℚ
deriving DecidableEq

/-- The body of `clear_z_coordinates` for one queried entity: the write goes
through `bypass_change_detection`, so only `translation.z` changes and the
change-detection flag is not set. Entities without a `RenderZCoordinate` are
not in the query. -/
def clear_one (r : TEntity) : TEntity :=
  if (r.render_z).isSome then
    { r with transform :=
        { r.transform with translation := { r.transform.translation with z := 0 } } }
  else r

/-- Function `clear_z_coordinates` from `src/lib.rs` over a list of entities. -/
def clear_z_coordinates (es : List TEntity) : List TEntity :=
  es.map clear_one

/-- The scene graph as the host could hand it to the traversal if parent/child
links were malformed: each entity id maps to its optional layer and its
children's ids. Unlike `ETree`, a cyclic graph is expressible here. -/
def EGraph (Layer : Type) : Type :=
  ℕ → Option (Option Layer × List ℕ)

mutual
/-- Fuelled model of the source's `propagate_layers_impl` recursion over an
arbitrary (possibly cyclic) graph. The recursion itself carries no visited-set
guard, so the only way to make it a total function is an explicit
recursion-depth budget: `none` means the budget was exhausted (or a child
lookup failed, which the source treats as fatal via `expect`). -/
def propagate_fueled (g : EGraph Layer) : ℕ → ℕ → Layer → Option (List (ℕ × Layer))
  | 0, _, _ => none
  | f + 1, e, propagated =>
    match g e with
    | none => none
    | some (l, cs) =>
      match propagate_fueled_children g f cs (l.getD propagated) with
      | none => none
      | some rest => some ((e, l.getD propagated) :: rest)
termination_by f _ _ => (f, 0)

/-- Fuelled model of the `for child in children` loop. -/
def propagate_fueled_children (g : EGraph Layer) : ℕ → List ℕ → Layer → Option (List (ℕ × Layer))
  | _, [], _ => some []
  | f, c :: cs, eff =>
    match propagate_fueled g f c eff with
    | none => none
    | some m =>
      match propagate_fueled_children g f cs eff with
      | none => none
      | some m2 => some (m ++ m2)
termination_by f cs _ => (f, cs.length + 1)
end

/-- A malformed graph in which entity `0` is its own child. -/
def g_cyc : EGraph TL :=
  fun e => if e = 0 then some (some TL.bottom, [0]) else none

/-- A well-formed two-entity graph: `0` (with a layer) has the single child
`1` (without one). -/
def g_line : EGraph TL :=
  fun e => if e = 0 then some (some TL.bottom, [1])
           else if e = 1 then some (none, []) else none

/-- The source's recursion never completes on the cyclic graph, whatever the
recursion-depth budget. -/
def recursion_diverges_on_cycle : Prop :=
  ∀ fuel : ℕ, propagate_fueled g_cyc fuel 0 TL.bottom = none

/-- A four-entity forest for exercising the inheritance walk: a layered root
with a plain child and a layered grandchild subtree, plus an unlayered root
whose subtree (including a layered non-root node) is never walked. -/
def F3 : List (ETree TL) :=
  [ETree.node 0 (some TL.bottom)
    [ETree.node 1 none [], ETree.node 2 (some TL.top) [ETree.node 3 none []]],
   ETree.node 4 none [ETree.node 5 (some TL.half) []]]

/-- A sample entity carrying a `RenderZCoordinate`. -/
def r_sample : TEntity :=
  TEntity.mk (Transform.mk (Vec3.mk 1 2 3) (Quat.mk 0 0 0 1) (Vec3.mk 7 8 9)) false (some 5)

theorem alookup_append_left {α : Type} {l₁ l₂ : List (ℕ × α)} {e : ℕ}
    (h : e ∈ l₁.map Prod.fst) : alookup (l₁ ++ l₂) e = alookup l₁ e := by
  induction l₁ with
  | nil => simp at h
  | cons p rest ih =>
    by_cases hpe : p.1 = e
    · cases p; simp_all [alookup]
    · cases p with
      | mk k v =>
        simp only [List.map_cons, List.mem_cons] at h
        simp only [List.cons_append, alookup, if_neg hpe]
        exact ih (h.resolve_left (fun hh => hpe hh.symm))

theorem alookup_append_right {α : Type} {l₁ l₂ : List (ℕ × α)} {e : ℕ}
    (h : e ∉ l₁.map Prod.fst) : alookup (l₁ ++ l₂) e = alookup l₂ e := by
  induction l₁ with
  | nil => simp
  | cons p rest ih =>
    cases p with
    | mk k v =>
      simp only [List.map_cons, List.mem_cons] at h
      push_neg at h
      have hk : ¬ (k = e) := Ne.symm h.1
      simp only [List.cons_append, alookup]
      rw [if_neg hk]
      exact ih h.2

theorem alookup_eq_none {α : Type} {l : List (ℕ × α)} {e : ℕ}
    (h : e ∉ l.map Prod.fst) : alookup l e = none := by
  induction l with
  | nil => rfl
  | cons p rest ih =>
    cases p with
    | mk k v =>
      simp only [List.map_cons, List.mem_cons] at h
      push_neg at h
      have hk : ¬ (k = e) := Ne.symm h.1
      simp only [alookup]
      rw [if_neg hk]
      exact ih h.2

theorem alookup_isSome {α : Type} {l : List (ℕ × α)} {e : ℕ}
    (h : e ∈ l.map Prod.fst) : (alookup l e).isSome := by
  induction l with
  | nil => simp at h
  | cons p rest ih =>
    cases p with
    | mk k v =>
      by_cases hke : k = e
      · simp [alookup, hke]
      · simp only [List.map_cons, List.mem_cons] at h
        simp only [alookup, if_neg hke]
        exact ih (h.resolve_left (fun hh => hke hh.symm))

theorem mem_keys_of_alookup {α : Type} {l : List (ℕ × α)} {e : ℕ} {v : α}
    (h : alookup l e = some v) : e ∈ l.map Prod.fst := by
  induction l with
  | nil => simp [alookup] at h
  | cons p rest ih =>
    cases p with
    | mk k w =>
      by_cases hke : k = e
      · simp [hke]
      · simp only [alookup, if_neg hke] at h
        simp only [List.map_cons, List.mem_cons]
        exact Or.inr (ih h)

mutual
theorem propagate_keys (t : ETree Layer) (p : Layer) :
    (propagate_layers_impl t p).map Prod.fst = treeIds t := by
  cases t with
  | node i l cs =>
    simp only [propagate_layers_impl, treeIds, List.map_cons, List.cons.injEq, true_and]
    exact propagate_children_keys cs (l.getD p)

theorem propagate_children_keys (cs : List (ETree Layer)) (eff : Layer) :
    (propagate_children cs eff).map Prod.fst = forestIds cs := by
  cases cs with
  | nil => rfl
  | cons c rest =>
    simp only [propagate_children, forestIds, List.map_append]
    rw [propagate_keys c eff, propagate_children_keys rest eff]
end

theorem inherited_layers_keys (forest : List (ETree Layer)) :
    (inherited_layers forest).map Prod.fst = layer_rooted_ids forest := by
  induction forest with
  | nil => rfl
  | cons t ts ih =>
    simp only [inherited_layers, layer_rooted_ids, List.map_append, ih]
    cases h : t.layer with
    | none => simp
    | some l => simp [propagate_keys]

theorem treeIds_subset_forestIds {cs : List (ETree Layer)} {c : ETree Layer}
    (hc : c ∈ cs) {x : ℕ} (hx : x ∈ treeIds c) : x ∈ forestIds cs := by
  induction cs with
  | nil => simp at hc
  | cons c0 rest ih =>
    simp only [forestIds, List.mem_append]
    rcases List.mem_cons.mp hc with h | h
    · exact Or.inl (h ▸ hx)
    · exact Or.inr (ih h)

theorem id_mem_treeIds_of_subtree_at :
    ∀ {path : List ℕ} {t s : ETree Layer}, subtree_at t path = some s → s.id ∈ treeIds t := by
  intro path
  induction path with
  | nil =>
    intro t s h
    simp only [subtree_at, Option.some.injEq] at h
    subst h
    cases t with
    | node i l cs => simp [treeIds, ETree.id]
  | cons i p ih =>
    intro t s h
    cases t with
    | node tid l cs =>
      simp only [subtree_at] at h
      cases hq : (ETree.children (ETree.node tid l cs)).get? i with
      | none => rw [hq] at h; exact absurd h (by simp)
      | some c =>
        rw [hq] at h
        have hmem : s.id ∈ treeIds c := ih h
        have hc : c ∈ cs := List.get?_mem hq
        simp only [treeIds, List.mem_cons]
        exact Or.inr (treeIds_subset_forestIds hc hmem)

mutual
theorem alookup_propagate {path : List ℕ} {t : ETree Layer} (p : Layer) {s : ETree Layer}
    (hnd : (treeIds t).Nodup) (hs : subtree_at t path = some s) :
    alookup (propagate_layers_impl t p) s.id = effective_along p t path := by
  cases path with
  | nil =>
    simp only [subtree_at, Option.some.injEq] at hs
    subst hs
    cases t with
    | node i l cs => simp [propagate_layers_impl, alookup, effective_along, ETree.id, ETree.layer]
  | cons i rest =>
    cases t with
    | node tid l cs =>
      simp only [subtree_at] at hs
      cases hq : (ETree.children (ETree.node tid l cs)).get? i with
      | none => rw [hq] at hs; exact absurd hs (by simp)
      | some c =>
        rw [hq] at hs
        simp only [ETree.children] at hq
        have hsid : s.id ∈ treeIds c := id_mem_treeIds_of_subtree_at hs
        have hcmem : c ∈ cs := List.get?_mem hq
        simp only [treeIds, List.nodup_cons] at hnd
        have htid : ¬ (tid = s.id) := by
          intro hh
          exact hnd.1 (hh ▸ treeIds_subset_forestIds hcmem hsid)
        simp only [propagate_layers_impl, alookup]
        rw [if_neg htid]
        simp only [effective_along, ETree.layer, ETree.children, hq]
        exact alookup_propagate_children (l.getD p) hnd.2 hq hs
termination_by (path.length, 0, 0)

theorem alookup_propagate_children {cs : List (ETree Layer)} (eff : Layer) {i : ℕ}
    {c : ETree Layer} {path : List ℕ} {s : ETree Layer}
    (hnd : (forestIds cs).Nodup) (hq : cs.get? i = some c) (hs : subtree_at c path = some s) :
    alookup (propagate_children cs eff) s.id = effective_along eff c path := by
  cases cs with
  | nil => exact absurd hq (by simp)
  | cons c0 rest =>
    have hnd' := (List.nodup_append.mp (by simpa [forestIds] using hnd))
    cases i with
    | zero =>
      have hc : c0 = c := by simpa using hq
      subst hc
      have hsid : s.id ∈ (propagate_layers_impl c0 eff).map Prod.fst := by
        rw [propagate_keys]
        exact id_mem_treeIds_of_subtree_at hs
      simp only [propagate_children]
      rw [alookup_append_left hsid]
      exact alookup_propagate eff hnd'.1 hs
    | succ j =>
      have hq' : rest.get? j = some c := by simpa using hq
      have hsid : s.id ∈ treeIds c := id_mem_treeIds_of_subtree_at hs
      have hnotin : s.id ∉ (propagate_layers_impl c0 eff).map Prod.fst := by
        rw [propagate_keys]
        intro hmem
        exact hnd'.2.2 hmem (treeIds_subset_forestIds (List.get?_mem hq') hsid)
      simp only [propagate_children]
      rw [alookup_append_right hnotin]
      exact alookup_propagate_children eff hnd'.2.1 hq' hs
termination_by (path.length, 1, cs.length)
end

theorem treeIds_subset_layer_rooted {ts : List (ETree Layer)} {t : ETree Layer}
    (ht : t ∈ ts) {rl : Layer} (hl : t.layer = some rl) {x : ℕ}
    (hx : x ∈ treeIds t) : x ∈ layer_rooted_ids ts := by
  induction ts with
  | nil => simp at ht
  | cons t0 rest ih =>
    simp only [layer_rooted_ids, List.mem_append]
    rcases List.mem_cons.mp ht with h | h
    · subst h
      rw [hl]
      exact Or.inl hx
    · exact Or.inr (ih h)

theorem alookup_inherited {forest : List (ETree Layer)}
    (hnd : (layer_rooted_ids forest).Nodup) {t : ETree Layer} (ht : t ∈ forest)
    {rl : Layer} (hl : t.layer = some rl) {path : List ℕ} {s : ETree Layer}
    (hs : subtree_at t path = some s) :
    alookup (inherited_layers forest) s.id = effective_along rl t path := by
  induction forest with
  | nil => simp at ht
  | cons t0 rest ih =>
    rcases List.mem_cons.mp ht with h | h
    · simp only [inherited_layers, h ▸ hl]
      have hndt : (treeIds t0).Nodup := by
        simp only [layer_rooted_ids, h ▸ hl] at hnd
        exact (List.nodup_append.mp hnd).1
      have hsid : s.id ∈ (propagate_layers_impl t0 rl).map Prod.fst := by
        rw [propagate_keys]
        exact h ▸ id_mem_treeIds_of_subtree_at hs
      rw [alookup_append_left hsid]
      exact h ▸ alookup_propagate rl (h ▸ hndt) hs
    · have hsid : s.id ∈ layer_rooted_ids rest :=
        treeIds_subset_layer_rooted h hl (id_mem_treeIds_of_subtree_at hs)
      simp only [inherited_layers]
      cases h0 : t0.layer with
      | none =>
        simp only [h0, List.nil_append]
        simp only [layer_rooted_ids, h0, List.nil_append] at hnd
        exact ih hnd h
      | some l0 =>
        simp only [h0]
        simp only [layer_rooted_ids, h0] at hnd
        have hnd' := List.nodup_append.mp hnd
        have hnotin : s.id ∉ (propagate_layers_impl t0 l0).map Prod.fst := by
          rw [propagate_keys]
          intro hmem
          exact hnd'.2.2 hmem hsid
        rw [alookup_append_right hnotin]
        exact ih hnd'.2.1 h

theorem zkey_le_antisymm {a b : ℚ × ℕ} (hab : zkey_le a b) (hba : zkey_le b a) :
    a.1 = b.1 ∧ a.2 = b.2 := by
  rcases hab with h1 | ⟨h1, h1'⟩
  · rcases hba with h2 | ⟨h2, h2'⟩
    · exact absurd (lt_trans h1 h2) (lt_irrefl _)
    · exact absurd (h2 ▸ h1) (lt_irrefl _)
  · rcases hba with h2 | ⟨h2, h2'⟩
    · exact absurd (h1 ▸ h2) (lt_irrefl _)
    · exact ⟨h1, Nat.le_antisymm h1' h2'⟩

theorem mem_assign_loop {asZ : Layer → ℚ} {layers : List (ℕ × Layer)} {alive : ℕ → Bool}
    {scale : ℚ} {e : ℕ} {z : ℚ} :
    ∀ {l : List (ℚ × ℕ)} {i : ℕ}, (e, z) ∈ assign_loop asZ layers alive scale i l →
    ∃ (k : ℕ) (y : ℚ) (lay : Layer), l.get? k = some (y, e) ∧ k < l.length ∧
      alookup layers e = some lay ∧ alive e = true ∧
      z = asZ lay + ((i + k : ℕ) : ℚ) * scale := by
  intro l
  induction l with
  | nil => intro i h; simp [assign_loop] at h
  | cons p rest ih =>
    intro i h
    cases p with
    | mk y0 e0 =>
      simp only [assign_loop] at h
      have tail_case : (e, z) ∈ assign_loop asZ layers alive scale (i + 1) rest →
          ∃ (k : ℕ) (y : ℚ) (lay : Layer), ((y0, e0) :: rest).get? k = some (y, e) ∧
            k < ((y0, e0) :: rest).length ∧ alookup layers e = some lay ∧ alive e = true ∧
            z = asZ lay + ((i + k : ℕ) : ℚ) * scale := by
        intro h0
        rcases ih h0 with ⟨k, y, lay, hget, hk, hal, hav, hz⟩
        refine ⟨k + 1, y, lay, by simpa using hget, Nat.succ_lt_succ hk, hal, hav, ?_⟩
        have harith : (i + 1) + k = i + (k + 1) := by omega
        rw [hz, harith]
      cases hl : alookup layers e0 with
      | some lay0 =>
        simp only [hl] at h
        by_cases ha : alive e0 = true
        · rw [if_pos ha] at h
          rcases List.mem_cons.mp h with h0 | h0
          · have he : e = e0 := congrArg Prod.fst h0
            have hz : z = asZ lay0 + (i : ℚ) * scale := congrArg Prod.snd h0
            subst he
            exact ⟨0, y0, lay0, rfl, Nat.succ_pos _, hl, ha, by simpa using hz⟩
          · exact tail_case h0
        · rw [if_neg ha] at h
          exact tail_case h
      | none =>
        simp only [hl] at h
        exact tail_case h

theorem alookup_assign_loop {asZ : Layer → ℚ} {layers : List (ℕ × Layer)} {alive : ℕ → Bool}
    {scale : ℚ} {e : ℕ} {y : ℚ} {lay : Layer}
    (hal : alookup layers e = some lay) (hav : alive e = true) :
    ∀ {l : List (ℚ × ℕ)} {k i : ℕ}, (l.map Prod.snd).Nodup → l.get? k = some (y, e) →
    alookup (assign_loop asZ layers alive scale i l) e =
      some (asZ lay + ((i + k : ℕ) : ℚ) * scale) := by
  intro l
  induction l with
  | nil => intro k i _ hget; simp at hget
  | cons p rest ih =>
    intro k i hnd hget
    cases p with
    | mk y0 e0 =>
      simp only [List.map_cons, List.nodup_cons] at hnd
      cases k with
      | zero =>
        have h0 : y0 = y ∧ e0 = e := by simpa using hget
        rcases h0 with ⟨hy0, he0⟩
        subst he0
        simp only [assign_loop, hal, if_pos hav, alookup, if_pos rfl]
        simp
      | succ j =>
        have hget' : rest.get? j = some (y, e) := by simpa using hget
        have hee : e0 ≠ e := by
          intro hh
          subst hh
          exact hnd.1 (List.mem_map.mpr ⟨(y, e0), List.get?_mem hget', rfl⟩)
        have step : alookup (assign_loop asZ layers alive scale i ((y0, e0) :: rest)) e =
            alookup (assign_loop asZ layers alive scale (i + 1) rest) e := by
          simp only [assign_loop]
          cases hl0 : alookup layers e0 with
          | some lay0 =>
            by_cases ha0 : alive e0 = true
            · simp only [if_pos ha0, alookup, if_neg hee]
            · simp only [if_neg ha0]
          | none => rfl
        rw [step, ih hnd.2 hget']
        have harith : (i + 1) + j = i + (j + 1) := by omega
        rw [harith]

theorem alookup_of_mem_nodup {α : Type} {l : List (ℕ × α)} {k : ℕ} {v : α}
    (hm : (k, v) ∈ l) (hnd : (l.map Prod.fst).Nodup) : alookup l k = some v := by
  induction l with
  | nil => simp at hm
  | cons p rest ih =>
    cases p with
    | mk k0 v0 =>
      simp only [List.map_cons, List.nodup_cons] at hnd
      rcases List.mem_cons.mp hm with h | h
      · have hk : k0 = k := (congrArg Prod.fst h).symm
        have hv : v0 = v := (congrArg Prod.snd h).symm
        simp [alookup, hk, hv]
      · have hk : k0 ≠ k := by
          intro hh
          subst hh
          exact hnd.1 (List.mem_map.mpr ⟨(k0, v), h, rfl⟩)
        simp only [alookup, if_neg hk]
        exact ih h hnd.2

theorem sort_keys_snd (pos : ℕ → Option ℚ) (layers : List (ℕ × Layer)) :
    (sort_keys_of pos layers).map Prod.snd = layers.map Prod.fst := by
  simp [sort_keys_of, List.map_map, Function.comp]

theorem sorted_snd_nodup {pos : ℕ → Option ℚ} {layers : List (ℕ × Layer)}
    (hnd : (layers.map Prod.fst).Nodup) :
    ((List.insertionSort zkey_le (sort_keys_of pos layers)).map Prod.snd).Nodup := by
  have hperm := (List.perm_insertionSort zkey_le (sort_keys_of pos layers)).map Prod.snd
  rw [hperm.nodup_iff, sort_keys_snd]
  exact hnd

theorem length_sorted_keys (pos : ℕ → Option ℚ) (layers : List (ℕ × Layer)) :
    (List.insertionSort zkey_le (sort_keys_of pos layers)).length = layers.length := by
  rw [List.length_insertionSort]
  simp [sort_keys_of]

theorem sort_keys_length (pos : ℕ → Option ℚ) (layers : List (ℕ × Layer)) :
    (sort_keys_of pos layers).length = layers.length := by
  simp [sort_keys_of]

theorem mem_compute_y_sort {asZ : Layer → ℚ} {layers : List (ℕ × Layer)} {pos : ℕ → Option ℚ}
    {alive : ℕ → Bool} {e : ℕ} {z : ℚ}
    (h : (e, z) ∈ compute_render_z_coordinates asZ layers pos alive true) :
    ∃ (lay : Layer) (k : ℕ), alookup layers e = some lay ∧ alive e = true ∧
      k < layers.length ∧ z = asZ lay + (k : ℚ) * (1 / (layers.length : ℚ)) := by
  simp only [compute_render_z_coordinates, if_true] at h
  rcases mem_assign_loop h with ⟨k, y, lay, hget, hk, hal, hav, hz⟩
  refine ⟨lay, k, hal, hav, ?_, ?_⟩
  · rw [length_sorted_keys] at hk
    exact hk
  · rw [hz, Nat.zero_add, sort_keys_length]

theorem mem_compute_no_sort {asZ : Layer → ℚ} {layers : List (ℕ × Layer)} {pos : ℕ → Option ℚ}
    {alive : ℕ → Bool} {e : ℕ} {z : ℚ}
    (h : (e, z) ∈ compute_render_z_coordinates asZ layers pos alive false) :
    ∃ pr : ℕ × Layer, pr ∈ layers ∧ pr.1 = e ∧ alive e = true ∧ z = asZ pr.2 := by
  simp only [compute_render_z_coordinates, Bool.false_eq_true, if_false,
    List.mem_filterMap] at h
  rcases h with ⟨pr, hpr, hcond⟩
  by_cases ha : alive pr.1 = true
  · rw [if_pos ha] at hcond
    have he : pr.1 = e := congrArg Prod.fst (Option.some.inj hcond)
    have hz : asZ pr.2 = z := congrArg Prod.snd (Option.some.inj hcond)
    exact ⟨pr, hpr, he, he ▸ ha, hz.symm⟩
  · rw [if_neg ha] at hcond
    exact absurd hcond (by simp)

theorem compute_mem_bound {asZ : Layer → ℚ} {layers : List (ℕ × Layer)} {pos : ℕ → Option ℚ}
    {alive : ℕ → Bool} {y_sort : Bool} {e : ℕ} {z : ℚ} {lay : Layer}
    (hnd : (layers.map Prod.fst).Nodup)
    (hw : (e, z) ∈ compute_render_z_coordinates asZ layers pos alive y_sort)
    (hl : alookup layers e = some lay) :
    asZ lay ≤ z ∧ z < asZ lay + 1 := by
  cases y_sort with
  | true =>
    rcases mem_compute_y_sort hw with ⟨lay', k, hal, _, hk, hz⟩
    have hlay : lay' = lay := Option.some.inj (hal ▸ hl)
    subst hlay
    have hn : 0 < (layers.length : ℚ) := by
      have : 0 < layers.length := Nat.lt_of_le_of_lt (Nat.zero_le k) hk
      exact_mod_cast this
    constructor
    · rw [hz]
      have : 0 ≤ (k : ℚ) * (1 / (layers.length : ℚ)) := by positivity
      linarith
    · rw [hz]
      have : (k : ℚ) * (1 / (layers.length : ℚ)) < 1 := by
        rw [mul_one_div, div_lt_one hn]
        exact_mod_cast hk
      linarith
  | false =>
    rcases mem_compute_no_sort hw with ⟨pr, hpr, he, _, hz⟩
    have hmem : (e, pr.2) ∈ layers := by
      have : pr = (e, pr.2) := by
        cases pr
        simp only at he
        simp [he]
      exact this ▸ hpr
    have : alookup layers e = some pr.2 := alookup_of_mem_nodup hmem hnd
    have hlay : pr.2 = lay := Option.some.inj (this ▸ hl)
    rw [hz, hlay]
    constructor
    · exact le_refl _
    · linarith

theorem compute_alookup_none {asZ : Layer → ℚ} {layers : List (ℕ × Layer)} {pos : ℕ → Option ℚ}
    {alive : ℕ → Bool} {y_sort : Bool} {e : ℕ}
    (hl : alookup layers e = none) :
    alookup (compute_render_z_coordinates asZ layers pos alive y_sort) e = none := by
  apply alookup_eq_none
  intro hmem
  rcases List.mem_map.mp hmem with ⟨pr, hpr, hfst⟩
  have hpr' : (e, pr.2) ∈ compute_render_z_coordinates asZ layers pos alive y_sort := by
    have : pr = (e, pr.2) := by
      cases pr
      simp only at hfst
      simp [hfst]
    exact this ▸ hpr
  cases y_sort with
  | true =>
    rcases mem_compute_y_sort hpr' with ⟨lay, k, hal, _, _, _⟩
    rw [hl] at hal
    exact absurd hal (by simp)
  | false =>
    rcases mem_compute_no_sort hpr' with ⟨pr2, hpr2, he2, _, _⟩
    have hkey : e ∈ layers.map Prod.fst := List.mem_map.mpr ⟨pr2, hpr2, he2⟩
    have hsome := alookup_isSome hkey
    rw [hl] at hsome
    exact absurd hsome (by simp)

theorem sorted_index_lt {l : List (ℚ × ℕ)} (hs : List.Sorted zkey_le l)
    {i j : ℕ} {ya yb : ℚ} {a b : ℕ}
    (hgi : l.get? i = some (ya, a)) (hgj : l.get? j = some (yb, b))
    (hy : yb < ya) : i < j := by
  rcases List.get?_eq_some.mp hgi with ⟨hi, hgeti⟩
  rcases List.get?_eq_some.mp hgj with ⟨hj, hgetj⟩
  by_contra hc
  push_neg at hc
  rcases Nat.lt_or_ge j i with hji | hij
  · have hrel := List.pairwise_iff_get.mp hs ⟨j, hj⟩ ⟨i, hi⟩ hji
    rw [hgeti, hgetj] at hrel
    simp only [zkey_le] at hrel
    rcases hrel with h1 | ⟨h1, _⟩
    · exact absurd (lt_trans h1 hy) (lt_irrefl _)
    · exact absurd (h1 ▸ hy) (lt_irrefl _)
  · have hji : j = i := Nat.le_antisymm hc hij
    subst hji
    rw [hgi] at hgj
    have : ya = yb := congrArg Prod.fst (Option.some.inj hgj)
    exact absurd (this ▸ hy) (lt_irrefl _)

theorem exists_sorted_index {pos : ℕ → Option ℚ} {layers : List (ℕ × Layer)} {e : ℕ}
    (hmem : e ∈ layers.map Prod.fst) :
    ∃ k, (List.insertionSort zkey_le (sort_keys_of pos layers)).get? k =
      some ((pos e).getD 0, e) := by
  rcases List.mem_map.mp hmem with ⟨pr, hpr, hfst⟩
  have hkey : ((pos e).getD 0, e) ∈ sort_keys_of pos layers := by
    apply List.mem_map.mpr
    exact ⟨pr, hpr, by rw [hfst]⟩
  have hsorted : ((pos e).getD 0, e) ∈ List.insertionSort zkey_le (sort_keys_of pos layers) :=
    (List.mem_insertionSort zkey_le).mpr hkey
  rcases List.mem_iff_get.mp hsorted with ⟨n, hn⟩
  exact ⟨n.1, by rw [List.get?_eq_get n.2]; rw [hn]⟩

theorem compute_alookup_at_index {asZ : Layer → ℚ} {layers : List (ℕ × Layer)}
    {pos : ℕ → Option ℚ} {alive : ℕ → Bool} {e : ℕ} {lay : Layer} {k : ℕ}
    (hnd : (layers.map Prod.fst).Nodup)
    (hl : alookup layers e = some lay) (ha : alive e = true)
    (hk : (List.insertionSort zkey_le (sort_keys_of pos layers)).get? k =
      some ((pos e).getD 0, e)) :
    alookup (compute_render_z_coordinates asZ layers pos alive true) e =
      some (asZ lay + (k : ℚ) * (1 / (layers.length : ℚ))) := by
  simp only [compute_render_z_coordinates, if_true]
  have h0 : alookup (assign_loop asZ layers alive (1 / ((sort_keys_of pos layers).length : ℚ)) 0
      (List.insertionSort zkey_le (sort_keys_of pos layers))) e =
      some (asZ lay + (((0 + k : ℕ)) : ℚ) * (1 / ((sort_keys_of pos layers).length : ℚ))) :=
    alookup_assign_loop hl ha (sorted_snd_nodup hnd) hk
  rw [h0, Nat.zero_add, sort_keys_length]

/-- C1: every depth written by the depth-assignment stage lies in
`[base(effective_layer), base(effective_layer) + 1)`; with y-sorting enabled it
is the base plus an offset `i * (1/n)` for the entity's sorted index `i` among
the `n` mapped entities, and with y-sorting disabled it is exactly the base, so
the depth never crosses into another layer's unit range. -/
theorem C1_offset_bound {asZ : Layer → ℚ} {layers : List (ℕ × Layer)} {pos : ℕ → Option ℚ}
    {alive : ℕ → Bool} {y_sort : Bool} {e : ℕ} {z : ℚ} {lay : Layer}
    (hnd : (layers.map Prod.fst).Nodup)
    (hw : (e, z) ∈ compute_render_z_coordinates asZ layers pos alive y_sort)
    (hl : alookup layers e = some lay) :
    (asZ lay ≤ z ∧ z < asZ lay + 1) ∧
    (y_sort = true → ∃ k : ℕ, k < layers.length ∧
        z = asZ lay + (k : ℚ) * (1 / (layers.length : ℚ))) ∧
    (y_sort = false → z = asZ lay) := by
  refine ⟨compute_mem_bound hnd hw hl, ?_, ?_⟩
  · intro hys
    subst hys
    rcases mem_compute_y_sort hw with ⟨lay', k, hal, _, hk, hz⟩
    have hlay : lay' = lay := Option.some.inj (hal ▸ hl)
    subst hlay
    exact ⟨k, hk, hz⟩
  · intro hys
    subst hys
    rcases mem_compute_no_sort hw with ⟨pr, hpr, he, _, hz⟩
    have hmem : (e, pr.2) ∈ layers := by
      have hpr2 : pr = (e, pr.2) := by
        cases pr
        simp only at he
        simp [he]
      exact hpr2 ▸ hpr
    have hsome : alookup layers e = some pr.2 := alookup_of_mem_nodup hmem hnd
    have hlay : pr.2 = lay := Option.some.inj (hsome ▸ hl)
    rw [hz, hlay]

/-- C2 counterexample: with two layers whose bases are only 1/2 apart (the
layer contract is not enforced), both entities receive depth 1/2, so the lower
layer's entity is not strictly below the higher layer's. -/
theorem C2_counterexample :
    asZTL TL.bottom < asZTL TL.half ∧
    alookup (compute_render_z_coordinates asZTL [(0, TL.bottom), (1, TL.half)]
      (fun e => if e = 0 then some (-10) else some 10) (fun _ => true) true) 0 = some (1 / 2) ∧
    alookup (compute_render_z_coordinates asZTL [(0, TL.bottom), (1, TL.half)]
      (fun e => if e = 0 then some (-10) else some 10) (fun _ => true) true) 1 = some (1 / 2) ∧
    ¬ ((1 : ℚ) / 2 < (1 : ℚ) / 2) := by
  refine ⟨by norm_num [asZTL], ?_, ?_, by norm_num⟩ <;>
    norm_num [compute_render_z_coordinates, sort_keys_of, assign_loop, alookup,
      List.insertionSort, List.orderedInsert, zkey_le, asZTL]

/-- C2 (amended): layer monotonicity — for entities A and B with effective
layers whose bases satisfy the documented contract of lying at least 1.0
apart (`base(L_A) + 1 ≤ base(L_B)`), A's computed depth is strictly less than
B's, regardless of position. Without that spacing hypothesis the statement is
false (see the counterexample). -/
theorem C2_layer_monotonic {asZ : Layer → ℚ} {layers : List (ℕ × Layer)} {pos : ℕ → Option ℚ}
    {alive : ℕ → Bool} {y_sort : Bool} {a b : ℕ} {za zb : ℚ} {la lb : Layer}
    (hnd : (layers.map Prod.fst).Nodup)
    (hwa : (a, za) ∈ compute_render_z_coordinates asZ layers pos alive y_sort)
    (hwb : (b, zb) ∈ compute_render_z_coordinates asZ layers pos alive y_sort)
    (hla : alookup layers a = some la) (hlb : alookup layers b = some lb)
    (hbase : asZ la + 1 ≤ asZ lb) :
    za < zb := by
  have ha := compute_mem_bound hnd hwa hla
  have hb := compute_mem_bound hnd hwb hlb
  linarith [ha.2, hb.1]

/-- C4: with y-sorting enabled, among entities sharing an effective layer the
one with the strictly larger world y gets a depth ≤ the other's; the sort key
orders larger y first, and key ties require exact position equality. -/
theorem C4_within_layer_order {asZ : Layer → ℚ} {layers : List (ℕ × Layer)}
    {pos : ℕ → Option ℚ} {alive : ℕ → Bool} {a b : ℕ} {lay : Layer} {ya yb : ℚ}
    (hnd : (layers.map Prod.fst).Nodup)
    (hla : alookup layers a = some lay) (hlb : alookup layers b = some lay)
    (hpa : pos a = some ya) (hpb : pos b = some yb) (hy : yb < ya)
    (haa : alive a = true) (hab : alive b = true) :
    (zkey_le (ya, a) (yb, b) ∧ ¬ zkey_le (yb, b) (ya, a)) ∧
    (∀ (y1 y2 : ℚ) (e1 e2 : ℕ),
      zkey_le (y1, e1) (y2, e2) → zkey_le (y2, e2) (y1, e1) → y1 = y2) ∧
    (∃ za zb, alookup (compute_render_z_coordinates asZ layers pos alive true) a = some za ∧
      alookup (compute_render_z_coordinates asZ layers pos alive true) b = some zb ∧
      za ≤ zb) := by
  refine ⟨⟨Or.inl hy, ?_⟩, ?_, ?_⟩
  · intro hcon
    simp only [zkey_le] at hcon
    rcases hcon with h1 | ⟨h1, _⟩
    · exact absurd (lt_trans h1 hy) (lt_irrefl _)
    · exact absurd (h1 ▸ hy) (lt_irrefl _)
  · intro y1 y2 e1 e2 h12 h21
    exact (zkey_le_antisymm h12 h21).1
  · rcases @exists_sorted_index Layer pos layers a (mem_keys_of_alookup hla) with ⟨ia, hka⟩
    rcases @exists_sorted_index Layer pos layers b (mem_keys_of_alookup hlb) with ⟨ib, hkb⟩
    have hza := @compute_alookup_at_index Layer asZ _ _ _ _ _ _ hnd hla haa hka
    have hzb := @compute_alookup_at_index Layer asZ _ _ _ _ _ _ hnd hlb hab hkb
    have hka' : (List.insertionSort zkey_le (sort_keys_of pos layers)).get? ia =
        some (ya, a) := by rw [hka, hpa]; rfl
    have hkb' : (List.insertionSort zkey_le (sort_keys_of pos layers)).get? ib =
        some (yb, b) := by rw [hkb, hpb]; rfl
    have hsorted : List.Sorted zkey_le (List.insertionSort zkey_le (sort_keys_of pos layers)) :=
      List.sorted_insertionSort zkey_le (sort_keys_of pos layers)
    have hab' : ia < ib := sorted_index_lt hsorted hka' hkb' hy
    refine ⟨_, _, hza, hzb, ?_⟩
    have hscale : 0 ≤ 1 / (layers.length : ℚ) := by positivity
    have : (ia : ℚ) ≤ (ib : ℚ) := by exact_mod_cast Nat.le_of_lt hab'
    have := mul_le_mul_of_nonneg_right this hscale
    linarith

/-- C7: with y-sorting enabled, an entity whose world-position lookup fails is
kept in the computation with vertical position zero rather than excluded (its
sort key is `(0, a)` and it still receives a write); and when some entity's
depth write fails, only that entity's update is dropped: every alive entity of
the mapping — whatever its position lookup returned — still receives a write,
every issued write is for an alive entity, and the failed entity's write is
the only thing absent (the stage never aborts). -/
theorem C7_lookup_failure_and_failed_write {asZ : Layer → ℚ} {layers : List (ℕ × Layer)}
    {pos : ℕ → Option ℚ} {alive : ℕ → Bool} {a b : ℕ} {la : Layer}
    (hnd : (layers.map Prod.fst).Nodup)
    (hla : alookup layers a = some la) (hpa : pos a = none) (haa : alive a = true)
    (hab : alive b = false) :
    ((0 : ℚ), a) ∈ sort_keys_of pos layers ∧
    (∃ za, alookup (compute_render_z_coordinates asZ layers pos alive true) a = some za) ∧
    (∀ (c : ℕ) (lc : Layer), alookup layers c = some lc → alive c = true →
      ∃ zc, alookup (compute_render_z_coordinates asZ layers pos alive true) c = some zc) ∧
    (∀ (c : ℕ) (zc : ℚ),
      (c, zc) ∈ compute_render_z_coordinates asZ layers pos alive true → alive c = true) ∧
    alookup (compute_render_z_coordinates asZ layers pos alive true) b = none := by
  have hall : ∀ (c : ℕ) (lc : Layer), alookup layers c = some lc → alive c = true →
      ∃ zc, alookup (compute_render_z_coordinates asZ layers pos alive true) c = some zc := by
    intro c lc hlc hac
    rcases @exists_sorted_index Layer pos layers c (mem_keys_of_alookup hlc) with ⟨ic, hkc⟩
    exact ⟨_, @compute_alookup_at_index Layer asZ _ _ _ _ _ _ hnd hlc hac hkc⟩
  refine ⟨?_, hall a la hla haa, hall, ?_, ?_⟩
  · rcases List.mem_map.mp (mem_keys_of_alookup hla) with ⟨pr, hpr, hfst⟩
    apply List.mem_map.mpr
    refine ⟨pr, hpr, ?_⟩
    rw [hfst, hpa]
    rfl
  · intro c zc hm
    rcases mem_compute_y_sort hm with ⟨lc, k, _, hav, _, _⟩
    exact hav
  · apply alookup_eq_none
    intro hmem
    rcases List.mem_map.mp hmem with ⟨pr, hpr, hfst⟩
    have hpr' : (b, pr.2) ∈ compute_render_z_coordinates asZ layers pos alive true := by
      have hpr2 : pr = (b, pr.2) := by
        cases pr
        simp only at hfst
        simp [hfst]
      exact hpr2 ▸ hpr
    rcases mem_compute_y_sort hpr' with ⟨lay', k, _, hav, _, _⟩
    rw [hab] at hav
    exact absurd hav (by simp)

/-- C10: with an empty effective-layer mapping and y-sorting enabled, the
depth-assignment stage issues no writes at all and completes normally, so no
entity can receive a depth (infinite, NaN or otherwise) from this path; the
division-by-zero scale factor is never consumed. -/
theorem C10_empty_mapping (asZ : Layer → ℚ) (pos : ℕ → Option ℚ) (alive : ℕ → Bool) :
    compute_render_z_coordinates asZ ([] : List (ℕ × Layer)) pos alive true = [] ∧
    ∀ e : ℕ, alookup (compute_render_z_coordinates asZ ([] : List (ℕ × Layer))
      pos alive true) e = none := by
  constructor
  · rfl
  · intro e
    rfl

/-- C3: the inheritance stage walks exactly the subtrees of parent-less
entities that carry an explicit layer; each visited entity is mapped to its
own explicit layer if present, otherwise to the effective layer of its
nearest layer-carrying ancestor (the spec-side `effective_along` rule); any
entity outside all layer-rooted subtrees is absent from the mapping. -/
theorem C3_inheritance (forest : List (ETree Layer))
    (hnd : (layer_rooted_ids forest).Nodup) :
    ((inherited_layers forest).map Prod.fst = layer_rooted_ids forest) ∧
    (∀ t ∈ forest, ∀ rl : Layer, t.layer = some rl →
      ∀ (path : List ℕ) (s : ETree Layer), subtree_at t path = some s →
        alookup (inherited_layers forest) s.id = effective_along rl t path) ∧
    (∀ e : ℕ, e ∉ layer_rooted_ids forest → alookup (inherited_layers forest) e = none) := by
  refine ⟨inherited_layers_keys forest, ?_, ?_⟩
  · intro t ht rl hl path s hs
    exact alookup_inherited hnd ht hl hs
  · intro e he
    apply alookup_eq_none
    rw [inherited_layers_keys]
    exact he

/-- C5 counterexample: entity 0 has no layer-rooted ancestor and no explicit
layer, and carries a stale `RenderZCoordinate` of 5. It is absent from the
mapping — but Clear does touch it (its local transform z goes from 3 to 0),
and Write-back reinstates the stale depth 5 into its world transform in the
same frame, contradicting both the never-touched and the not-reinstated
parts of the claim. -/
theorem C5_counterexample :
    alookup (inherited_layers w_stale.forest) 0 = none ∧
    w_stale.localZ 0 = 3 ∧ (frame asZTL true w_stale).localZ 0 = 0 ∧
    (frame asZTL true w_stale).globalZ 0 = 5 ∧ ¬ ((5 : ℚ) = 0) := by
  refine ⟨rfl, rfl, rfl, rfl, by norm_num⟩

/-- C5 (amended): an entity outside every layer-rooted subtree is absent from
the effective-layer mapping and the Assign stage never writes it, so its
stale computed-depth field survives; Clear does touch it when it carries the
field (zeroing its local transform depth), and Write-back then reinstates the
stale computed depth into its world transform that same frame. -/
theorem C5_stale_entity {asZ : Layer → ℚ} {y_sort : Bool} {w : World Layer} {e : ℕ} {z y : ℚ}
    (hout : e ∉ layer_rooted_ids w.forest)
    (hrz : w.renderZ e = some z) (hgy : w.globalY e = some y) :
    alookup (inherited_layers w.forest) e = none ∧
    (frame asZ y_sort w).renderZ e = some z ∧
    (frame asZ y_sort w).localZ e = 0 ∧
    (frame asZ y_sort w).globalZ e = z := by
  have habs : alookup (inherited_layers w.forest) e = none := by
    apply alookup_eq_none
    rw [inherited_layers_keys]
    exact hout
  have hwr : alookup (compute_render_z_coordinates asZ (inherited_layers w.forest)
      w.globalY w.alive y_sort) e = none := compute_alookup_none habs
  have hrz' : (frame asZ y_sort w).renderZ e = some z := by
    simp only [frame, update_global_transforms, assign_stage, clear_z_coordinates_world]
    simp only [hwr]
    exact hrz
  refine ⟨habs, hrz', ?_, ?_⟩
  · simp only [frame, update_global_transforms, assign_stage, clear_z_coordinates_world]
    simp [hrz]
  · simp only [frame, update_global_transforms]
    have : (assign_stage asZ y_sort (clear_z_coordinates_world w)).renderZ e = some z := hrz'
    rw [this]
    have hgy' : (assign_stage asZ y_sort (clear_z_coordinates_world w)).globalY e = some y := hgy
    rw [hgy']

/-- C6: for every entity carrying a computed-depth field, Clear sets exactly
the z of its transform's translation to 0, leaves x, y, rotation, scale, the
depth field, and the change-detection flag unchanged (the write bypasses
change detection); an entity without the field is left entirely untouched. -/
theorem C6_clear_semantics (es : List TEntity) (r : TEntity) :
    clear_z_coordinates es = es.map clear_one ∧
    (r.render_z.isSome = true →
      (clear_one r).transform.translation.z = 0 ∧
      (clear_one r).transform.translation.x = r.transform.translation.x ∧
      (clear_one r).transform.translation.y = r.transform.translation.y ∧
      (clear_one r).transform.rotation = r.transform.rotation ∧
      (clear_one r).transform.scale = r.transform.scale ∧
      (clear_one r).transform_changed = r.transform_changed ∧
      (clear_one r).render_z = r.render_z) ∧
    (r.render_z = none → clear_one r = r) := by
  refine ⟨rfl, ?_, ?_⟩
  · intro h
    simp [clear_one, h]
  · intro h
    simp [clear_one, h]

/-- C8: running Clear → Inherit → Assign-depth → Write-back twice in
succession on an unchanged scene yields the same computed depth (and the same
written world-transform depth) for every entity as running it once: the
stages never modify the inputs (structure, layers, world y) the computation
reads. -/
theorem C8_idempotent (asZ : Layer → ℚ) (y_sort : Bool) (w : World Layer) (e : ℕ) :
    (frame asZ y_sort (frame asZ y_sort w)).renderZ e = (frame asZ y_sort w).renderZ e ∧
    (frame asZ y_sort (frame asZ y_sort w)).globalZ e = (frame asZ y_sort w).globalZ e := by
  have hrz : ∀ v : World Layer,
      (frame asZ y_sort v).renderZ e =
        match alookup (compute_render_z_coordinates asZ (inherited_layers v.forest)
          v.globalY v.alive y_sort) e with
        | some z => some z
        | none => v.renderZ e := by
    intro v
    rfl
  have hsame : (frame asZ y_sort w).forest = w.forest ∧
      (frame asZ y_sort w).globalY = w.globalY ∧
      (frame asZ y_sort w).alive = w.alive := ⟨rfl, rfl, rfl⟩
  have hr : (frame asZ y_sort (frame asZ y_sort w)).renderZ e = (frame asZ y_sort w).renderZ e := by
    rw [hrz (frame asZ y_sort w), hrz w, hsame.1, hsame.2.1, hsame.2.2]
    cases halo : alookup (compute_render_z_coordinates asZ (inherited_layers w.forest)
        w.globalY w.alive y_sort) e with
    | some z => rfl
    | none => rfl
  refine ⟨hr, ?_⟩
  have hgz : ∀ v : World Layer,
      (frame asZ y_sort v).globalZ e =
        match (frame asZ y_sort v).renderZ e, v.globalY e with
        | some z, some _ => z
        | _, _ => v.globalZ e := by
    intro v
    rfl
  have hgy : (frame asZ y_sort w).globalY e = w.globalY e := rfl
  rw [hgz (frame asZ y_sort w), hr, hgy]
  cases hrw : (frame asZ y_sort w).renderZ e with
  | none => rfl
  | some z =>
    cases hgw : w.globalY e with
    | none => rfl
    | some yy =>
      rw [hgz w, hrw, hgw]

theorem propagate_fueled_cyc_none :
    ∀ fuel : ℕ, propagate_fueled g_cyc fuel 0 TL.bottom = none := by
  intro fuel
  induction fuel with
  | zero => simp [propagate_fueled]
  | succ f ih => simp [propagate_fueled, propagate_fueled_children, g_cyc, ih]

/-- C9 counterexample: the traversal is not a guarded worklist walk — on the
malformed cyclic graph where entity 0 is its own child, the source's
recursion (modelled with an explicit recursion-depth budget) fails to
complete for every budget, instead of terminating with bounded stack depth
as the claim asserts. -/
theorem C9_counterexample : recursion_diverges_on_cycle :=
  propagate_fueled_cyc_none

/-- C9 (amended): the layer-inheritance traversal is plain unbounded recursion
over children with no visited-set guard: it completes on acyclic graphs (given
enough recursion depth), but on a cyclic parent/child graph it exhausts every
finite recursion-depth budget rather than terminating. -/
theorem C9_unguarded_recursion :
    (∀ fuel : ℕ, propagate_fueled g_cyc fuel 0 TL.bottom = none) ∧
    propagate_fueled g_line 3 0 TL.bottom = some [(0, TL.bottom), (1, TL.bottom)] := by
  constructor
  · exact propagate_fueled_cyc_none
  · simp [propagate_fueled, propagate_fueled_children, g_line]

theorem C1_offset_bound_witness :
    ((([(0, TL.bottom)] : List (ℕ × TL)).map Prod.fst).Nodup) ∧
    ((0, (0 : ℚ)) ∈ compute_render_z_coordinates asZTL [(0, TL.bottom)]
      (fun _ => some 0) (fun _ => true) true) ∧
    (alookup [(0, TL.bottom)] 0 = some TL.bottom) ∧
    ((asZTL TL.bottom ≤ (0 : ℚ) ∧ (0 : ℚ) < asZTL TL.bottom + 1) ∧
     (true = true → ∃ k : ℕ, k < ([(0, TL.bottom)] : List (ℕ × TL)).length ∧
        (0 : ℚ) = asZTL TL.bottom +
          (k : ℚ) * (1 / ((([(0, TL.bottom)] : List (ℕ × TL)).length : ℕ) : ℚ))) ∧
     (true = false → (0 : ℚ) = asZTL TL.bottom)) := by
  have h1 : ((([(0, TL.bottom)] : List (ℕ × TL)).map Prod.fst).Nodup) := by decide
  have h2 : (0, (0 : ℚ)) ∈ compute_render_z_coordinates asZTL [(0, TL.bottom)]
      (fun _ => some 0) (fun _ => true) true := by
    norm_num [compute_render_z_coordinates, sort_keys_of, assign_loop, alookup,
      List.insertionSort, List.orderedInsert, zkey_le, asZTL]
  have h3 : alookup [(0, TL.bottom)] 0 = some TL.bottom := rfl
  exact ⟨h1, h2, h3, C1_offset_bound h1 h2 h3⟩

theorem C2_layer_monotonic_witness :
    ((([(0, TL.bottom), (1, TL.top)] : List (ℕ × TL)).map Prod.fst).Nodup) ∧
    ((0, (0 : ℚ)) ∈ compute_render_z_coordinates asZTL [(0, TL.bottom), (1, TL.top)]
      (fun _ => some 0) (fun _ => true) true) ∧
    ((1, (5 : ℚ) / 2) ∈ compute_render_z_coordinates asZTL [(0, TL.bottom), (1, TL.top)]
      (fun _ => some 0) (fun _ => true) true) ∧
    (alookup [(0, TL.bottom), (1, TL.top)] 0 = some TL.bottom) ∧
    (alookup [(0, TL.bottom), (1, TL.top)] 1 = some TL.top) ∧
    (asZTL TL.bottom + 1 ≤ asZTL TL.top) ∧
    ((0 : ℚ) < 5 / 2) := by
  have h1 : ((([(0, TL.bottom), (1, TL.top)] : List (ℕ × TL)).map Prod.fst).Nodup) := by decide
  have h2 : (0, (0 : ℚ)) ∈ compute_render_z_coordinates asZTL [(0, TL.bottom), (1, TL.top)]
      (fun _ => some 0) (fun _ => true) true := by
    norm_num [compute_render_z_coordinates, sort_keys_of, assign_loop, alookup,
      List.insertionSort, List.orderedInsert, zkey_le, asZTL]
  have h3 : (1, (5 : ℚ) / 2) ∈ compute_render_z_coordinates asZTL [(0, TL.bottom), (1, TL.top)]
      (fun _ => some 0) (fun _ => true) true := by
    norm_num [compute_render_z_coordinates, sort_keys_of, assign_loop, alookup,
      List.insertionSort, List.orderedInsert, zkey_le, asZTL]
  have h4 : alookup [(0, TL.bottom), (1, TL.top)] 0 = some TL.bottom := rfl
  have h5 : alookup [(0, TL.bottom), (1, TL.top)] 1 = some TL.top := rfl
  have h6 : asZTL TL.bottom + 1 ≤ asZTL TL.top := by norm_num [asZTL]
  exact ⟨h1, h2, h3, h4, h5, h6, C2_layer_monotonic h1 h2 h3 h4 h5 h6⟩

theorem C3_inheritance_witness :
    ((layer_rooted_ids F3).Nodup) ∧
    (((inherited_layers F3).map Prod.fst = layer_rooted_ids F3) ∧
     (∀ t ∈ F3, ∀ rl : TL, t.layer = some rl →
       ∀ (path : List ℕ) (s : ETree TL), subtree_at t path = some s →
         alookup (inherited_layers F3) s.id = effective_along rl t path) ∧
     (∀ e : ℕ, e ∉ layer_rooted_ids F3 → alookup (inherited_layers F3) e = none)) := by
  have hnd : (layer_rooted_ids F3).Nodup := by
    have h : layer_rooted_ids F3 = [0, 1, 2, 3] := by
      simp [F3, layer_rooted_ids, treeIds, forestIds, ETree.layer]
    rw [h]
    decide
  exact ⟨hnd, C3_inheritance F3 hnd⟩

theorem C4_within_layer_order_witness :
    ((([(0, TL.bottom), (1, TL.bottom)] : List (ℕ × TL)).map Prod.fst).Nodup) ∧
    (alookup [(0, TL.bottom), (1, TL.bottom)] 0 = some TL.bottom) ∧
    (alookup [(0, TL.bottom), (1, TL.bottom)] 1 = some TL.bottom) ∧
    ((1 : ℚ) < 5) ∧
    ((zkey_le ((5 : ℚ), 0) ((1 : ℚ), 1) ∧ ¬ zkey_le ((1 : ℚ), 1) ((5 : ℚ), 0)) ∧
     (∀ (y1 y2 : ℚ) (e1 e2 : ℕ),
       zkey_le (y1, e1) (y2, e2) → zkey_le (y2, e2) (y1, e1) → y1 = y2) ∧
     (∃ za zb,
       alookup (compute_render_z_coordinates asZTL [(0, TL.bottom), (1, TL.bottom)]
         (fun e => if e = 0 then some 5 else some 1) (fun _ => true) true) 0 = some za ∧
       alookup (compute_render_z_coordinates asZTL [(0, TL.bottom), (1, TL.bottom)]
         (fun e => if e = 0 then some 5 else some 1) (fun _ => true) true) 1 = some zb ∧
       za ≤ zb)) := by
  have h1 : ((([(0, TL.bottom), (1, TL.bottom)] : List (ℕ × TL)).map Prod.fst).Nodup) := by decide
  have h2 : alookup [(0, TL.bottom), (1, TL.bottom)] 0 = some TL.bottom := rfl
  have h3 : alookup [(0, TL.bottom), (1, TL.bottom)] 1 = some TL.bottom := rfl
  have hpa : (fun e => if e = 0 then some (5 : ℚ) else some 1) 0 = some 5 := rfl
  have hpb : (fun e => if e = 0 then some (5 : ℚ) else some 1) 1 = some 1 := rfl
  have hy : (1 : ℚ) < 5 := by norm_num
  exact ⟨h1, h2, h3, hy,
    C4_within_layer_order h1 h2 h3 hpa hpb hy rfl rfl⟩

theorem C5_stale_entity_witness :
    (0 ∉ layer_rooted_ids w_stale.forest) ∧
    (w_stale.renderZ 0 = some 5) ∧
    (w_stale.globalY 0 = some 2) ∧
    (alookup (inherited_layers w_stale.forest) 0 = none ∧
     (frame asZTL true w_stale).renderZ 0 = some 5 ∧
     (frame asZTL true w_stale).localZ 0 = 0 ∧
     (frame asZTL true w_stale).globalZ 0 = 5) := by
  have hout : 0 ∉ layer_rooted_ids w_stale.forest := by
    simp [w_stale, layer_rooted_ids, ETree.layer]
  have hrz : w_stale.renderZ 0 = some 5 := rfl
  have hgy : w_stale.globalY 0 = some 2 := rfl
  exact ⟨hout, hrz, hgy, C5_stale_entity hout hrz hgy⟩

theorem C6_clear_semantics_witness :
    (r_sample.render_z.isSome = true) ∧
    ((clear_one r_sample).transform.translation.z = 0 ∧
     (clear_one r_sample).transform.translation.x = r_sample.transform.translation.x ∧
     (clear_one r_sample).transform.translation.y = r_sample.transform.translation.y ∧
     (clear_one r_sample).transform.rotation = r_sample.transform.rotation ∧
     (clear_one r_sample).transform.scale = r_sample.transform.scale ∧
     (clear_one r_sample).transform_changed = r_sample.transform_changed ∧
     (clear_one r_sample).render_z = r_sample.render_z) :=
  ⟨rfl, (C6_clear_semantics [] r_sample).2.1 rfl⟩

theorem C7_lookup_failure_and_failed_write_witness :
    ((([(0, TL.bottom), (1, TL.top), (2, TL.half)] : List (ℕ × TL)).map Prod.fst).Nodup) ∧
    (alookup [(0, TL.bottom), (1, TL.top), (2, TL.half)] 0 = some TL.bottom) ∧
    ((fun e : ℕ => if e = 0 then (none : Option ℚ) else some 7) 0 = none) ∧
    ((fun e : ℕ => e != 1) 0 = true) ∧
    ((fun e : ℕ => e != 1) 1 = false) ∧
    (((0 : ℚ), 0) ∈ sort_keys_of (fun e => if e = 0 then none else some 7)
        [(0, TL.bottom), (1, TL.top), (2, TL.half)] ∧
     (∃ za, alookup (compute_render_z_coordinates asZTL [(0, TL.bottom), (1, TL.top), (2, TL.half)]
       (fun e => if e = 0 then none else some 7) (fun e => e != 1) true) 0 = some za) ∧
     (∀ (c : ℕ) (lc : TL),
       alookup [(0, TL.bottom), (1, TL.top), (2, TL.half)] c = some lc → (c != 1) = true →
       ∃ zc, alookup (compute_render_z_coordinates asZTL [(0, TL.bottom), (1, TL.top), (2, TL.half)]
         (fun e => if e = 0 then none else some 7) (fun e => e != 1) true) c = some zc) ∧
     (∀ (c : ℕ) (zc : ℚ),
       (c, zc) ∈ compute_render_z_coordinates asZTL [(0, TL.bottom), (1, TL.top), (2, TL.half)]
         (fun e => if e = 0 then none else some 7) (fun e => e != 1) true → (c != 1) = true) ∧
     alookup (compute_render_z_coordinates asZTL [(0, TL.bottom), (1, TL.top), (2, TL.half)]
       (fun e => if e = 0 then none else some 7) (fun e => e != 1) true) 1 = none) ∧
    (∃ z2, alookup (compute_render_z_coordinates asZTL [(0, TL.bottom), (1, TL.top), (2, TL.half)]
       (fun e => if e = 0 then none else some 7) (fun e => e != 1) true) 2 = some z2) := by
  have h1 : ((([(0, TL.bottom), (1, TL.top), (2, TL.half)] : List (ℕ × TL)).map
      Prod.fst).Nodup) := by decide
  have h2 : alookup [(0, TL.bottom), (1, TL.top), (2, TL.half)] 0 = some TL.bottom := rfl
  have hmain := @C7_lookup_failure_and_failed_write TL asZTL
    [(0, TL.bottom), (1, TL.top), (2, TL.half)]
    (fun e => if e = 0 then none else some 7) (fun e => e != 1) 0 1 TL.bottom
    h1 h2 rfl rfl rfl
  exact ⟨h1, h2, rfl, rfl, rfl, hmain, hmain.2.2.1 2 TL.half rfl rfl⟩
